import Mathlib

/-!
Shallow embedding of the search/match/combine/render core of `src/part6/app.py`
(an in-memory text search engine over a corpus of sonnets), together with
proofs of the specified properties.

Strings are modelled as lists of characters (`Str`); Python's half-open slice
`text[i:j]` becomes `(text.drop i).take (j - i)`, which has the same clamping
behaviour.  Python's `sorted` on tuples is lexicographic and stable; it is
modelled by `List.insertionSort` with the lexicographic relation `pyLeSpan`
(stability matters only for equal keys, where the relations below are total).
-/

namespace Part6

abbrev Str := List Char

abbrev Span := ℕ × ℕ

/-- Lowercasing, `str.lower()` applied characterwise. -/
def lower (s : Str) : Str := s.map Char.toLower

/-- Python's `sorted` order on spans: lexicographic order on pairs. -/
def pyLeSpan (a b : Span) : Prop := a.1 < b.1 ∨ (a.1 = b.1 ∧ a.2 ≤ b.2)

instance : DecidableRel pyLeSpan := fun a b => by unfold pyLeSpan; exact inferInstance

instance : IsTotal Span pyLeSpan := ⟨by intro a b; unfold pyLeSpan; omega⟩

instance : IsTrans Span pyLeSpan := ⟨by intro a b c; unfold pyLeSpan; omega⟩

instance : IsAntisymm Span pyLeSpan := by
  constructor
  intro a b h1 h2
  obtain ⟨a1, a2⟩ := a
  obtain ⟨b1, b2⟩ := b
  unfold pyLeSpan at h1 h2
  simp only [Prod.mk.injEq]
  omega

/-- `find_spans(text, pattern)` from `app.py`: all (possibly overlapping) match
spans `(i, i + len(pattern))`, scanning start offsets in ascending order.
Python's `range(len(text) - len(pattern) + 1)` is computed over `ℤ` and
truncated, matching `range` of a negative argument being empty. -/
def find_spans (text pat : Str) : List Span :=
  if pat = [] then []
  else
    (List.range (((text.length : ℤ) - pat.length + 1).toNat)).filterMap fun i =>
      if (text.drop i).take pat.length = pat then some (i, i + pat.length) else none

/-- The sweep inside `ansi_highlight`: running span `(cs, ce)`, absorbing the
next span when its start is `≤ ce` (taking the max of the ends), otherwise
flushing the running span; the final running span is always flushed. -/
def mergeGo (cs ce : ℕ) : List Span → List Span
  | [] => [(cs, ce)]
  | (s, e) :: rest =>
    if s ≤ ce then mergeGo cs (max ce e) rest
    else (cs, ce) :: mergeGo s e rest

/-- The merge phase of `ansi_highlight`: sort the spans (Python `sorted`),
then sweep left to right merging overlapping or touching spans. -/
def merge_spans (spans : List Span) : List Span :=
  match List.insertionSort pyLeSpan spans with
  | [] => []
  | (s, e) :: rest => mergeGo s e rest

/-- The ANSI highlight-begin marker `"\x1b[43m\x1b[30m"`. -/
def hlBegin : Str := "\x1b[43m\x1b[30m".toList

/-- The ANSI reset marker `"\x1b[0m"`. -/
def hlReset : Str := "\x1b[0m".toList

/-- The rendering loop of `ansi_highlight`: walk the merged spans keeping the
cursor `i`, copying `text[i:s]`, the highlighted `text[s:e]` and finally the
tail `text[i:]`. -/
def render (text : Str) : List Span → ℕ → Str
  | [], i => text.drop i
  | (s, e) :: rest, i =>
    (text.drop i).take (s - i) ++ hlBegin ++ (text.drop s).take (e - s) ++ hlReset ++
      render text rest e

/-- `ansi_highlight(text, spans)` from `app.py`: unchanged text when `spans`
is empty, otherwise the rendering of the sorted-and-merged spans. -/
def ansi_highlight (text : Str) (spans : List Span) : Str :=
  if spans = [] then text else render text (merge_spans spans) 0

/-- A document: `{"title": ..., "lines": [...]}`. -/
structure Document where
  title : Str
  lines : List Str
deriving DecidableEq

/-- One entry of `line_matches`: `{"line_no": ..., "text": ..., "spans": [...]}`. -/
structure LineMatch where
  line_no : ℕ
  text : Str
  spans : List Span
deriving DecidableEq

/-- A per-document match result:
`{"title": ..., "title_spans": [...], "line_matches": [...], "matches": n}`. -/
structure Result where
  title : Str
  title_spans : List Span
  line_matches : List LineMatch
  «matches» : ℕ
deriving DecidableEq

/-- The line loop of `search_sonnet`: `enumerate(lines_raw, start=1)`, emitting
a `LineMatch` only when the span list for the lowercased line is nonempty. -/
def search_lines (q : Str) : List Str → ℕ → List LineMatch
  | [], _ => []
  | l :: ls, idx =>
    let spans := find_spans (lower l) q
    if spans = [] then search_lines q ls (idx + 1)
    else ⟨idx, l, spans⟩ :: search_lines q ls (idx + 1)

/-- Total span count over a `line_matches` list:
`sum(len(lm["spans"]) for lm in line_matches)`. -/
def spanCount (lms : List LineMatch) : ℕ := (lms.map fun lm => lm.spans.length).sum

/-- `search_sonnet(sonnet, query)` from `app.py`. -/
def search_sonnet (doc : Document) (query : Str) : Result :=
  let q := lower query
  let title_spans := find_spans (lower doc.title) q
  let lms := search_lines q doc.lines 1
  { title := doc.title
    title_spans := title_spans
    line_matches := lms
    «matches» := title_spans.length + spanCount lms }

/-- Python's sort key for the merged line matches: ascending `line_no`. -/
def lineLe (a b : LineMatch) : Prop := a.line_no ≤ b.line_no

instance : DecidableRel lineLe := fun a b => by unfold lineLe; exact inferInstance

instance : IsTotal LineMatch lineLe := ⟨by intro a b; unfold lineLe; omega⟩

instance : IsTrans LineMatch lineLe := ⟨by intro a b c; unfold lineLe; omega⟩

/-- One step of the `for lm in result2["line_matches"]` loop of
`combine_results`: if the line number is already a key of `lines_by_no`,
extend that entry's span list, otherwise insert the new entry at the end
(Python dicts preserve insertion order). -/
def extendLine (l : List LineMatch) (lm : LineMatch) : List LineMatch :=
  if l.any fun x => x.line_no == lm.line_no then
    l.map fun x =>
      if x.line_no == lm.line_no then { x with spans := x.spans ++ lm.spans } else x
  else l ++ [lm]

/-- One step of the dict comprehension
`{lm["line_no"]: dict(lm) for lm in result1["line_matches"]}`: a repeated key
replaces the stored value but keeps its original position. -/
def insertLast (l : List LineMatch) (lm : LineMatch) : List LineMatch :=
  if l.any fun x => x.line_no == lm.line_no then
    l.map fun x => if x.line_no == lm.line_no then lm else x
  else l ++ [lm]

/-- The dict comprehension building `lines_by_no` from `result1`. -/
def dictOfLines (l : List LineMatch) : List LineMatch := l.foldl insertLast []

/-- `combine_results(result1, result2)` from `app.py` (the value of the dict
it returns): summed `matches`, sorted concatenation of `title_spans`, and the
`lines_by_no` merge sorted by `line_no`. -/
def combine_results (r1 r2 : Result) : Result :=
  { title := r1.title
    title_spans := List.insertionSort pyLeSpan (r1.title_spans ++ r2.title_spans)
    line_matches :=
      List.insertionSort lineLe (r2.line_matches.foldl extendLine (dictOfLines r1.line_matches))
    «matches» := r1.«matches» + r2.«matches» }

/-- The value of `result1` after `combine_results(result1, result2)` returns.
`combine_results` copies each of `result1`'s line dicts with `dict(lm)`, which
shares the nested `spans` list; the loop then calls
`lines_by_no[ln]["spans"].extend(...)` on that shared list, so each of
`result1`'s line entries whose `line_no` also occurs in `result2` has its span
list extended in place by the matching spans of `result2`. -/
def combine_mut_r1 (r1 r2 : Result) : Result :=
  { r1 with
    line_matches := r1.line_matches.map fun lm =>
      { lm with
        spans := lm.spans ++
          ((r2.line_matches.filter fun x => x.line_no == lm.line_no).map fun x => x.spans).flatten } }

/-- One step of the per-document fold in `main`'s query loop: the
`if config["search_mode"] == "AND" ... elif ... == "OR"` chain.  For any other
mode neither branch runs and the accumulator is left unchanged. -/
def andOrStep (mode : String) (doc : Document) (acc : Result) (term : Str) : Result :=
  let result := search_sonnet doc term
  if mode = "AND" then
    if acc.«matches» > 0 ∧ result.«matches» > 0 then combine_results acc result
    else { acc with «matches» := 0 }
  else if mode = "OR" then combine_results acc result
  else acc

/-- The whole per-document evaluation of a query `t :: ts` in `main`: the
first term seeds the accumulator with `search_sonnet`, every later term is
folded in with `andOrStep`. -/
def runDoc (mode : String) (doc : Document) (t : Str) (ts : List Str) : Result :=
  ts.foldl (andOrStep mode doc) (search_sonnet doc t)

/-- Decimal rendering of a natural number, `str(n)`. -/
def natStr (n : ℕ) : Str := (Nat.repr n).toList

/-- Exactly two decimal digits (with leading zero), the fractional part of a
`:.2f` rendering. -/
def pad2 (n : ℕ) : Str := [Char.ofNat (48 + n / 10 % 10), Char.ofNat (48 + n % 10)]

/-- Python's `f"{x:.2f}"` on the elapsed milliseconds, abstracted to exact
rationals: round to hundredths, then render with exactly two digits after the
decimal point. -/
def format2dp (x : ℚ) : Str :=
  let c := (round (x * 100)).toNat
  natStr (c / 100) ++ '.' :: pad2 (c % 100)

/-- The summary line of `print_results`:
`f'{len(matched)} out of {total_docs} sonnets contain "{query}".'`, with
`f" Your query took {query_time_ms:.2f}ms."` appended when a timing value is
supplied. -/
def summary_line (query : Str) (results : List Result) (query_time_ms : Option ℚ) : Str :=
  let matched := results.filter fun r => decide (0 < r.«matches»)
  let base := natStr matched.length ++ " out of ".toList ++ natStr results.length ++
    " sonnets contain \"".toList ++ query ++ "\".".toList
  match query_time_ms with
  | none => base
  | some t => base ++ " Your query took ".toList ++ format2dp t ++ "ms.".toList

/-- Width-2 right-aligned line number, `f"{lm['line_no']:2}"`. -/
def padw2 (n : ℕ) : Str := if n < 10 then ' ' :: natStr n else natStr n

/-- One printed line-match row of `print_results`. -/
def line_match_out (highlight : Bool) (lm : LineMatch) : Str :=
  "  [".toList ++ padw2 lm.line_no ++ "] ".toList ++
    (if highlight then ansi_highlight lm.text lm.spans else lm.text)

/-- The block printed for one matched document: the (newline-prefixed) title
row `f"\n[{idx}/{total_docs}] {title_line}"` followed by its line-match rows. -/
def doc_out (total : ℕ) (highlight : Bool) (idx : ℕ) (r : Result) : List Str :=
  (('\n' :: "[".toList) ++ natStr idx ++ "/".toList ++ natStr total ++ "] ".toList ++
      (if highlight then ansi_highlight r.title r.title_spans else r.title)) ::
    r.line_matches.map (line_match_out highlight)

/-- `print_results` from `app.py`, as the list of lines it prints: the summary
line, then for each matched document (re-numbered from 1, corpus order
preserved by `filter`) its block. -/
def print_results (query : Str) (results : List Result) (highlight : Bool)
    (query_time_ms : Option ℚ) : List Str :=
  let matched := results.filter fun r => decide (0 < r.«matches»)
  summary_line query results query_time_ms ::
    (matched.enum.flatMap fun p => doc_out results.length highlight (p.1 + 1) p.2)

/-! ### Lemmas about `find_spans` -/

theorem find_spans_range_iff (text pat : Str) (j : ℕ) :
    j < (((text.length : ℤ) - pat.length + 1)).toNat ↔ j + pat.length ≤ text.length := by
  rw [Int.lt_toNat]
  omega

theorem mem_find_spans (text pat : Str) (i : ℕ) :
    (i, i + pat.length) ∈ find_spans text pat ↔
      pat ≠ [] ∧ i + pat.length ≤ text.length ∧ (text.drop i).take pat.length = pat := by
  unfold find_spans
  by_cases hp : pat = []
  · simp [hp]
  · simp only [if_neg hp, List.mem_filterMap, List.mem_range]
    constructor
    · rintro ⟨j, hj, hf⟩
      by_cases hc : (text.drop j).take pat.length = pat
      · rw [if_pos hc] at hf
        have hji : j = i := by
          have := Option.some.inj hf
          exact congrArg Prod.fst this
        subst hji
        exact ⟨hp, (find_spans_range_iff text pat j).mp hj, hc⟩
      · rw [if_neg hc] at hf
        exact absurd hf (by simp)
    · rintro ⟨-, hlen, hc⟩
      exact ⟨i, (find_spans_range_iff text pat i).mpr hlen, by rw [if_pos hc]⟩

theorem find_spans_shape (text pat : Str) :
    ∀ p ∈ find_spans text pat, p.2 = p.1 + pat.length := by
  intro p hp
  unfold find_spans at hp
  by_cases hpat : pat = []
  · rw [if_pos hpat] at hp
    exact absurd hp (List.not_mem_nil p)
  · rw [if_neg hpat] at hp
    simp only [List.mem_filterMap, List.mem_range] at hp
    obtain ⟨j, -, hf⟩ := hp
    by_cases hc : (text.drop j).take pat.length = pat
    · rw [if_pos hc] at hf
      have := Option.some.inj hf
      subst this
      rfl
    · rw [if_neg hc] at hf
      exact absurd hf (by simp)

theorem find_spans_starts_increasing (text pat : Str) :
    List.Pairwise (fun a b : Span => a.1 < b.1) (find_spans text pat) := by
  unfold find_spans
  by_cases hpat : pat = []
  · simp [hpat]
  · rw [if_neg hpat]
    refine List.Pairwise.filterMap _ ?_ (List.pairwise_lt_range _)
    intro a a' hlt b hb b' hb'
    by_cases hc : (text.drop a).take pat.length = pat
    · rw [if_pos hc] at hb
      by_cases hc' : (text.drop a').take pat.length = pat
      · rw [if_pos hc'] at hb'
        rw [Option.mem_some_iff] at hb hb'
        subst hb
        subst hb'
        exact hlt
      · rw [if_neg hc'] at hb'
        exact absurd hb' (by simp)
    · rw [if_neg hc] at hb
      exact absurd hb (by simp)

theorem find_spans_nil_of (text pat : Str)
    (h : pat = [] ∨ text.length < pat.length) : find_spans text pat = [] := by
  unfold find_spans
  rcases h with h | h
  · rw [if_pos h]
  · by_cases hp : pat = []
    · rw [if_pos hp]
    · rw [if_neg hp]
      have h0 : (((text.length : ℤ) - pat.length + 1)).toNat = 0 := by omega
      rw [h0]
      rfl

/-- C1: for already-lowercased `text` and `pattern`, `find_spans` returns
exactly the spans `(i, i + len pattern)` at every start offset `i` with
`i + len pattern ≤ len text` where the slice equals the pattern, in ascending
order of `i` (overlapping occurrences included), and it returns the empty
list whenever the pattern is empty or longer than the text. -/
theorem find_spans_spec (text pat : Str) :
    ((pat = [] ∨ text.length < pat.length) → find_spans text pat = [])
    ∧ (∀ i : ℕ, (i, i + pat.length) ∈ find_spans text pat ↔
        pat ≠ [] ∧ i + pat.length ≤ text.length ∧ (text.drop i).take pat.length = pat)
    ∧ (∀ p ∈ find_spans text pat, p.2 = p.1 + pat.length)
    ∧ List.Pairwise (fun a b : Span => a.1 < b.1) (find_spans text pat) :=
  ⟨find_spans_nil_of text pat, mem_find_spans text pat, find_spans_shape text pat,
    find_spans_starts_increasing text pat⟩

/-- C1 witness: the emptiness clause at `pattern = ""`, and the membership
clause reporting the overlapping occurrence `(0, 2)` of `"aa"` in `"aaa"`. -/
theorem find_spans_spec_witness :
    find_spans "ab".toList [] = []
    ∧ ((0 : ℕ), 0 + ("aa".toList).length) ∈ find_spans "aaa".toList "aa".toList :=
  ⟨(find_spans_spec "ab".toList []).1 (Or.inl rfl),
    ((find_spans_spec "aaa".toList "aa".toList).2.1 0).mpr (by decide)⟩

/-! ### Lemmas about the span merge of `ansi_highlight` -/

/-- Membership in the union of the half-open ranges of a span list. -/
def covers (l : List Span) (x : ℕ) : Prop := ∃ p ∈ l, p.1 ≤ x ∧ x < p.2

theorem covers_nil (x : ℕ) : ¬ covers [] x := by simp [covers]

theorem covers_cons (p : Span) (l : List Span) (x : ℕ) :
    covers (p :: l) x ↔ (p.1 ≤ x ∧ x < p.2) ∨ covers l x := by
  unfold covers
  constructor
  · rintro ⟨q, hq, hx⟩
    rcases List.mem_cons.mp hq with rfl | hq'
    · exact Or.inl hx
    · exact Or.inr ⟨q, hq', hx⟩
  · rintro (hx | ⟨q, hq, hx⟩)
    · exact ⟨p, List.mem_cons_self _ _, hx⟩
    · exact ⟨q, List.mem_cons_of_mem _ hq, hx⟩

theorem mergeGo_head : ∀ (rest : List Span) (cs ce : ℕ),
    ∃ ce' t, mergeGo cs ce rest = (cs, ce') :: t ∧ ce ≤ ce'
  | [], cs, ce => ⟨ce, [], rfl, le_refl ce⟩
  | (s, e) :: rest, cs, ce => by
    unfold mergeGo
    by_cases h : s ≤ ce
    · rw [if_pos h]
      obtain ⟨ce', t, heq, hle⟩ := mergeGo_head rest cs (max ce e)
      exact ⟨ce', t, heq, le_trans (le_max_left ce e) hle⟩
    · rw [if_neg h]
      exact ⟨ce, _, rfl, le_refl ce⟩

theorem mergeGo_covers : ∀ (rest : List Span) (cs ce : ℕ),
    List.Pairwise (fun a b : Span => a.1 ≤ b.1) ((cs, ce) :: rest) →
    ∀ x, covers (mergeGo cs ce rest) x ↔ (cs ≤ x ∧ x < ce) ∨ covers rest x
  | [], cs, ce, _, x => by
    unfold mergeGo
    rw [covers_cons]
  | (s, e) :: rest, cs, ce, hpw, x => by
    unfold mergeGo
    rw [List.pairwise_cons] at hpw
    obtain ⟨hcs, hpw'⟩ := hpw
    have hcss : cs ≤ s := hcs (s, e) (List.mem_cons_self _ _)
    by_cases h : s ≤ ce
    · rw [if_pos h]
      have hpw2 : List.Pairwise (fun a b : Span => a.1 ≤ b.1) ((cs, max ce e) :: rest) := by
        rw [List.pairwise_cons]
        rw [List.pairwise_cons] at hpw'
        exact ⟨fun p hp => hcs p (List.mem_cons_of_mem _ hp), hpw'.2⟩
      rw [mergeGo_covers rest cs (max ce e) hpw2 x, covers_cons]
      constructor
      · rintro (⟨h1, h2⟩ | hcov)
        · rcases lt_or_le x ce with hx | hx
          · exact Or.inl ⟨h1, hx⟩
          · exact Or.inr (Or.inl ⟨by omega, by omega⟩)
        · exact Or.inr (Or.inr hcov)
      · rintro (⟨h1, h2⟩ | ⟨h1, h2⟩ | hcov)
        · exact Or.inl ⟨h1, lt_of_lt_of_le h2 (le_max_left _ _)⟩
        · exact Or.inl ⟨le_trans hcss h1, lt_of_lt_of_le h2 (le_max_right _ _)⟩
        · exact Or.inr hcov
    · rw [if_neg h]
      rw [covers_cons, mergeGo_covers rest s e hpw' x, covers_cons]

theorem mergeGo_chain : ∀ (rest : List Span) (cs ce : ℕ),
    List.Pairwise (fun a b : Span => a.1 ≤ b.1) ((cs, ce) :: rest) →
    List.Chain' (fun a b : Span => a.2 < b.1) (mergeGo cs ce rest)
  | [], cs, ce, _ => by
    unfold mergeGo
    exact List.chain'_singleton _
  | (s, e) :: rest, cs, ce, hpw => by
    unfold mergeGo
    rw [List.pairwise_cons] at hpw
    obtain ⟨hcs, hpw'⟩ := hpw
    by_cases h : s ≤ ce
    · rw [if_pos h]
      refine mergeGo_chain rest cs (max ce e) ?_
      rw [List.pairwise_cons]
      rw [List.pairwise_cons] at hpw'
      exact ⟨fun p hp => hcs p (List.mem_cons_of_mem _ hp), hpw'.2⟩
    · rw [if_neg h]
      obtain ⟨ce', t, heq, -⟩ := mergeGo_head rest s e
      rw [heq, List.chain'_cons]
      constructor
      · show ce < s
        omega
      · rw [← heq]
        exact mergeGo_chain rest s e hpw'

theorem mergeGo_valid : ∀ (rest : List Span) (cs ce : ℕ), cs < ce →
    (∀ p ∈ rest, p.1 < p.2) → ∀ p ∈ mergeGo cs ce rest, p.1 < p.2
  | [], cs, ce, hce, _, p, hp => by
    unfold mergeGo at hp
    rcases List.mem_singleton.mp hp with rfl
    exact hce
  | (s, e) :: rest, cs, ce, hce, hrest, p, hp => by
    unfold mergeGo at hp
    by_cases h : s ≤ ce
    · rw [if_pos h] at hp
      exact mergeGo_valid rest cs (max ce e) (lt_of_lt_of_le hce (le_max_left _ _))
        (fun q hq => hrest q (List.mem_cons_of_mem _ hq)) p hp
    · rw [if_neg h] at hp
      rcases List.mem_cons.mp hp with rfl | hp'
      · exact hce
      · exact mergeGo_valid rest s e (hrest (s, e) (List.mem_cons_self _ _))
          (fun q hq => hrest q (List.mem_cons_of_mem _ hq)) p hp'

theorem sorted_starts (l : List Span) :
    List.Pairwise (fun a b : Span => a.1 ≤ b.1) (List.insertionSort pyLeSpan l) :=
  List.Pairwise.imp (fun h => by unfold pyLeSpan at h; omega)
    (List.sorted_insertionSort pyLeSpan l)

theorem merge_spans_chain (l : List Span) :
    List.Chain' (fun a b : Span => a.2 < b.1) (merge_spans l) := by
  unfold merge_spans
  have hs := sorted_starts l
  cases h : List.insertionSort pyLeSpan l with
  | nil => exact List.chain'_nil
  | cons p rest =>
    rw [h] at hs
    obtain ⟨s, e⟩ := p
    exact mergeGo_chain rest s e hs

theorem merge_spans_covers (l : List Span) (x : ℕ) :
    covers (merge_spans l) x ↔ covers l x := by
  have hperm := List.perm_insertionSort pyLeSpan l
  have hcov : covers (List.insertionSort pyLeSpan l) x ↔ covers l x := by
    unfold covers
    constructor
    · rintro ⟨p, hp, hx⟩
      exact ⟨p, hperm.mem_iff.mp hp, hx⟩
    · rintro ⟨p, hp, hx⟩
      exact ⟨p, hperm.mem_iff.mpr hp, hx⟩
  rw [← hcov]
  unfold merge_spans
  have hs := sorted_starts l
  cases h : List.insertionSort pyLeSpan l with
  | nil => exact Iff.rfl
  | cons p rest =>
    rw [h] at hs
    obtain ⟨s, e⟩ := p
    rw [mergeGo_covers rest s e hs x, covers_cons]

theorem merge_spans_valid (l : List Span) (hl : ∀ p ∈ l, p.1 < p.2) :
    ∀ p ∈ merge_spans l, p.1 < p.2 := by
  have hs : ∀ p ∈ List.insertionSort pyLeSpan l, p.1 < p.2 := fun p hp =>
    hl p ((List.perm_insertionSort pyLeSpan l).mem_iff.mp hp)
  unfold merge_spans
  cases h : List.insertionSort pyLeSpan l with
  | nil =>
    intro p hp
    exact absurd hp (List.not_mem_nil p)
  | cons q rest =>
    rw [h] at hs
    obtain ⟨s, e⟩ := q
    exact mergeGo_valid rest s e (hs (s, e) (List.mem_cons_self _ _))
      (fun p hp => hs p (List.mem_cons_of_mem _ hp))

/-- C7: merging a span list (sort ascending, sweep absorbing any span whose
start is at most the running end, touching included, final span flushed)
yields an ordered, pairwise-disjoint, non-adjacent list of spans covering
exactly the union of the input ranges; in particular
`merge([(0,3),(2,5),(8,9)]) = [(0,5),(8,9)]`. -/
theorem merge_spans_spec (l : List Span) :
    List.Chain' (fun a b : Span => a.2 < b.1) (merge_spans l)
    ∧ (∀ x : ℕ, covers (merge_spans l) x ↔ covers l x)
    ∧ ((∀ p ∈ l, p.1 < p.2) → ∀ p ∈ merge_spans l, p.1 < p.2)
    ∧ merge_spans [(0, 3), (2, 5), (8, 9)] = [(0, 5), (8, 9)] :=
  ⟨merge_spans_chain l, merge_spans_covers l, merge_spans_valid l, by decide⟩

/-- C7 witness: the validity clause evaluated on `[(0,3),(2,5),(8,9)]`. -/
theorem merge_spans_spec_witness :
    (∀ p ∈ ([(0, 3), (2, 5), (8, 9)] : List Span), p.1 < p.2)
    ∧ ∀ p ∈ merge_spans [(0, 3), (2, 5), (8, 9)], p.1 < p.2 :=
  ⟨by decide, (merge_spans_spec [(0, 3), (2, 5), (8, 9)]).2.2.1 (by decide)⟩

theorem insertionSort_eq_of_perm (l1 l2 : List Span) (h : l1.Perm l2) :
    List.insertionSort pyLeSpan l1 = List.insertionSort pyLeSpan l2 :=
  List.eq_of_perm_of_sorted
    ((List.perm_insertionSort pyLeSpan l1).trans
      (h.trans (List.perm_insertionSort pyLeSpan l2).symm))
    (List.sorted_insertionSort pyLeSpan l1)
    (List.sorted_insertionSort pyLeSpan l2)

/-- C10: `ansi_highlight` is invariant under permutation of its span list —
it sorts (with the antisymmetric lexicographic order of Python tuples) and
merges internally, so any reordering of the spans renders identically. -/
theorem ansi_highlight_perm_invariant (text : Str) (s1 s2 : List Span)
    (h : s1.Perm s2) : ansi_highlight text s1 = ansi_highlight text s2 := by
  unfold ansi_highlight
  by_cases h1 : s1 = []
  · subst h1
    have h2 : [] = s2 := h.nil_eq
    rw [← h2]
  · have h2 : s2 ≠ [] := fun he => h1 (by rw [he] at h; exact h.eq_nil)
    rw [if_neg h1, if_neg h2]
    unfold merge_spans
    rw [insertionSort_eq_of_perm s1 s2 h]

/-- C10 witness: swapping the two spans `[(2,5),(0,3)]` leaves the rendering
of `"abcdef"` unchanged. -/
theorem ansi_highlight_perm_invariant_witness :
    ansi_highlight "abcdef".toList [(2, 5), (0, 3)] =
      ansi_highlight "abcdef".toList [(0, 3), (2, 5)] :=
  ansi_highlight_perm_invariant "abcdef".toList _ _ (List.Perm.swap _ _ _)

/-! ### Lemmas about `search_sonnet` -/

theorem search_lines_line_no_lb (q : Str) :
    ∀ (ls : List Str) (idx : ℕ), ∀ lm ∈ search_lines q ls idx, idx ≤ lm.line_no
  | [], idx => by simp [search_lines]
  | l :: ls, idx => by
    intro lm hlm
    simp only [search_lines] at hlm
    by_cases h : find_spans (lower l) q = []
    · rw [if_pos h] at hlm
      have := search_lines_line_no_lb q ls (idx + 1) lm hlm
      omega
    · rw [if_neg h] at hlm
      rcases List.mem_cons.mp hlm with rfl | hlm'
      · exact le_refl idx
      · have := search_lines_line_no_lb q ls (idx + 1) lm hlm'
        omega

theorem search_lines_pairwise (q : Str) :
    ∀ (ls : List Str) (idx : ℕ),
      List.Pairwise (fun a b : LineMatch => a.line_no < b.line_no) (search_lines q ls idx)
  | [], idx => by simp [search_lines]
  | l :: ls, idx => by
    simp only [search_lines]
    by_cases h : find_spans (lower l) q = []
    · rw [if_pos h]
      exact search_lines_pairwise q ls (idx + 1)
    · rw [if_neg h]
      refine List.pairwise_cons.mpr ⟨?_, search_lines_pairwise q ls (idx + 1)⟩
      intro lm hlm
      have := search_lines_line_no_lb q ls (idx + 1) lm hlm
      show idx < lm.line_no
      omega

theorem search_lines_mem (q : Str) :
    ∀ (ls : List Str) (idx : ℕ), ∀ lm ∈ search_lines q ls idx,
      lm.spans ≠ [] ∧ lm.spans = find_spans (lower lm.text) q
        ∧ ls[lm.line_no - idx]? = some lm.text ∧ idx ≤ lm.line_no
  | [], idx => by simp [search_lines]
  | l :: ls, idx => by
    intro lm hlm
    simp only [search_lines] at hlm
    by_cases h : find_spans (lower l) q = []
    · rw [if_pos h] at hlm
      obtain ⟨h1, h2, h3, h4⟩ := search_lines_mem q ls (idx + 1) lm hlm
      refine ⟨h1, h2, ?_, by omega⟩
      have hd : lm.line_no - idx = (lm.line_no - (idx + 1)) + 1 := by omega
      rw [hd, List.getElem?_cons_succ]
      exact h3
    · rw [if_neg h] at hlm
      rcases List.mem_cons.mp hlm with rfl | hlm'
      · exact ⟨h, rfl, by simp, le_refl idx⟩
      · obtain ⟨h1, h2, h3, h4⟩ := search_lines_mem q ls (idx + 1) lm hlm'
        refine ⟨h1, h2, ?_, by omega⟩
        have hd : lm.line_no - idx = (lm.line_no - (idx + 1)) + 1 := by omega
        rw [hd, List.getElem?_cons_succ]
        exact h3

theorem search_lines_complete (q : Str) :
    ∀ (ls : List Str) (idx : ℕ) (j : ℕ) (l : Str), ls[j]? = some l →
      find_spans (lower l) q ≠ [] →
      ∃ lm ∈ search_lines q ls idx, lm.line_no = idx + j
  | [], _, j, l => by simp
  | l0 :: ls, idx, 0, l => by
    intro hget hne
    rw [List.getElem?_cons_zero] at hget
    have hll : l0 = l := Option.some.inj hget
    subst hll
    simp only [search_lines]
    rw [if_neg hne]
    exact ⟨⟨idx, l0, find_spans (lower l0) q⟩, List.mem_cons_self _ _, by simp⟩
  | l0 :: ls, idx, j + 1, l => by
    intro hget hne
    rw [List.getElem?_cons_succ] at hget
    obtain ⟨lm, hlm, hno⟩ := search_lines_complete q ls (idx + 1) j l hget hne
    simp only [search_lines]
    by_cases h : find_spans (lower l0) q = []
    · rw [if_pos h]
      exact ⟨lm, hlm, by omega⟩
    · rw [if_neg h]
      exact ⟨lm, List.mem_cons_of_mem _ hlm, by omega⟩

/-- C8: `search_sonnet` copies the title, emits a `LineMatch` (with 1-based
line number and the original non-lowercased line text) exactly for the lines
whose lowercased text has at least one span — never with an empty span list —
and a document with `matches = 0` still yields a well-formed result with the
title copied and empty `title_spans` and `line_matches`. -/
theorem search_sonnet_emission_spec (doc : Document) (query : Str) :
    (search_sonnet doc query).title = doc.title
    ∧ (∀ lm ∈ (search_sonnet doc query).line_matches,
        lm.spans ≠ [] ∧ lm.spans = find_spans (lower lm.text) (lower query)
          ∧ 1 ≤ lm.line_no ∧ doc.lines[lm.line_no - 1]? = some lm.text)
    ∧ (∀ (j : ℕ) (l : Str), doc.lines[j]? = some l →
        find_spans (lower l) (lower query) ≠ [] →
        ∃ lm ∈ (search_sonnet doc query).line_matches, lm.line_no = j + 1)
    ∧ ((search_sonnet doc query).«matches» = 0 →
        (search_sonnet doc query).title_spans = []
          ∧ (search_sonnet doc query).line_matches = []) := by
  refine ⟨rfl, ?_, ?_, ?_⟩
  · intro lm hlm
    obtain ⟨h1, h2, h3, h4⟩ := search_lines_mem (lower query) doc.lines 1 lm hlm
    exact ⟨h1, h2, h4, h3⟩
  · intro j l hget hne
    obtain ⟨lm, hlm, hno⟩ := search_lines_complete (lower query) doc.lines 1 j l hget hne
    exact ⟨lm, hlm, by omega⟩
  · intro h0
    have hm : (search_sonnet doc query).«matches» =
        (search_sonnet doc query).title_spans.length +
          spanCount (search_sonnet doc query).line_matches := rfl
    rw [h0] at hm
    refine ⟨List.eq_nil_of_length_eq_zero (by omega), ?_⟩
    cases hl : (search_sonnet doc query).line_matches with
    | nil => rfl
    | cons lm rest =>
      have hmem : lm ∈ (search_sonnet doc query).line_matches := by
        rw [hl]
        exact List.mem_cons_self _ _
      obtain ⟨h1, -, -, -⟩ := search_lines_mem (lower query) doc.lines 1 lm hmem
      have hsc : spanCount (lm :: rest) = lm.spans.length + spanCount rest := by
        simp [spanCount]
      rw [hl, hsc] at hm
      have : lm.spans.length = 0 := by omega
      exact absurd (List.eq_nil_of_length_eq_zero this) h1

/-- C8 witness: a no-match document yields empty span data, and the line
`"abc"` matching `"b"` is reported with line number 1. -/
theorem search_sonnet_emission_spec_witness :
    (search_sonnet ⟨"T".toList, ["ab".toList]⟩ "zz".toList).title_spans = []
    ∧ (search_sonnet ⟨"T".toList, ["ab".toList]⟩ "zz".toList).line_matches = []
    ∧ ∃ lm ∈ (search_sonnet ⟨"T".toList, ["abc".toList]⟩ "b".toList).line_matches,
        lm.line_no = 0 + 1 :=
  ⟨((search_sonnet_emission_spec ⟨"T".toList, ["ab".toList]⟩ "zz".toList).2.2.2 (by decide)).1,
    ((search_sonnet_emission_spec ⟨"T".toList, ["ab".toList]⟩ "zz".toList).2.2.2 (by decide)).2,
    (search_sonnet_emission_spec ⟨"T".toList, ["abc".toList]⟩ "b".toList).2.2.1 0 "abc".toList
      (by decide) (by decide)⟩

/-! ### The DocumentMatchResult invariant and `combine_results` -/

/-- The DocumentMatchResult invariant: `matches` equals the title span count
plus the total line span count, and `line_matches` has strictly increasing
line numbers (hence at most one entry per distinct line number). -/
def Inv (r : Result) : Prop :=
  r.«matches» = r.title_spans.length + spanCount r.line_matches
    ∧ List.Pairwise (fun a b : LineMatch => a.line_no < b.line_no) r.line_matches

theorem spanCount_nil : spanCount [] = 0 := rfl

theorem spanCount_cons (lm : LineMatch) (l : List LineMatch) :
    spanCount (lm :: l) = lm.spans.length + spanCount l := by
  simp [spanCount]

theorem spanCount_append (l1 l2 : List LineMatch) :
    spanCount (l1 ++ l2) = spanCount l1 + spanCount l2 := by
  simp [spanCount]

theorem any_line_no_eq (l : List LineMatch) (n : ℕ) :
    (l.any fun x => x.line_no == n) = true ↔ ∃ x ∈ l, x.line_no = n := by
  simp [List.any_eq_true]

theorem keyNodup_of_pairwise_lt (l : List LineMatch)
    (h : List.Pairwise (fun a b : LineMatch => a.line_no < b.line_no) l) :
    (l.map fun x => x.line_no).Nodup :=
  List.pairwise_map.mpr (h.imp fun hab => Nat.ne_of_lt hab)

theorem map_extend_of_no_key (l : List LineMatch) (n : ℕ) (f : LineMatch → LineMatch)
    (h : ∀ x ∈ l, x.line_no ≠ n) :
    (l.map fun x => if x.line_no == n then f x else x) = l := by
  induction l with
  | nil => rfl
  | cons a l ih =>
    have hb : (a.line_no == n) = false := by
      simp [h a (List.mem_cons_self _ _)]
    simp only [List.map_cons, hb, Bool.false_eq_true, if_false]
    rw [ih fun x hx => h x (List.mem_cons_of_mem _ hx)]

theorem spanCount_map_extend (lm : LineMatch) :
    ∀ l : List LineMatch, (l.map fun x => x.line_no).Nodup →
      (∃ x ∈ l, x.line_no = lm.line_no) →
      spanCount (l.map fun x =>
          if x.line_no == lm.line_no then { x with spans := x.spans ++ lm.spans } else x)
        = spanCount l + lm.spans.length
  | [], _, hmem => by simp at hmem
  | a :: l, hnd, hmem => by
    rw [List.map_cons, List.nodup_cons] at hnd
    by_cases ha : a.line_no = lm.line_no
    · have hb : (a.line_no == lm.line_no) = true := by simp [ha]
      simp only [List.map_cons, hb, if_true]
      have hrest : ∀ x ∈ l, x.line_no ≠ lm.line_no := by
        intro x hx hxn
        apply hnd.1
        rw [ha, ← hxn]
        exact List.mem_map_of_mem _ hx
      rw [map_extend_of_no_key l lm.line_no _ hrest, spanCount_cons, spanCount_cons]
      simp
      omega
    · have hb : (a.line_no == lm.line_no) = false := by simp [ha]
      simp only [List.map_cons, hb, Bool.false_eq_true, if_false]
      have hmem' : ∃ x ∈ l, x.line_no = lm.line_no := by
        obtain ⟨x, hx, hxe⟩ := hmem
        rcases List.mem_cons.mp hx with rfl | hx'
        · exact absurd hxe ha
        · exact ⟨x, hx', hxe⟩
      rw [spanCount_cons, spanCount_cons, spanCount_map_extend lm l hnd.2 hmem']
      omega

theorem extendLine_keys_of_present (l : List LineMatch) (lm : LineMatch) :
    ((l.map fun x =>
        if x.line_no == lm.line_no then { x with spans := x.spans ++ lm.spans } else x).map
      fun x => x.line_no) = l.map fun x => x.line_no := by
  rw [List.map_map]
  apply List.map_congr_left
  intro x _
  by_cases hx : x.line_no = lm.line_no
  · simp [hx]
  · simp [hx]

theorem extendLine_keyNodup (l : List LineMatch) (lm : LineMatch)
    (hnd : (l.map fun x => x.line_no).Nodup) :
    ((extendLine l lm).map fun x => x.line_no).Nodup := by
  unfold extendLine
  by_cases h : (l.any fun x => x.line_no == lm.line_no) = true
  · rw [if_pos h, extendLine_keys_of_present]
    exact hnd
  · rw [if_neg h, List.map_append]
    have hno : ∀ x ∈ l, x.line_no ≠ lm.line_no := by
      intro x hx hxe
      exact h ((any_line_no_eq l lm.line_no).mpr ⟨x, hx, hxe⟩)
    rw [List.nodup_append]
    refine ⟨hnd, List.nodup_singleton _, ?_⟩
    intro k hk
    simp only [List.map_cons, List.map_nil, List.mem_singleton]
    obtain ⟨x, hx, rfl⟩ := List.mem_map.mp hk
    exact hno x hx

theorem extendLine_spanCount (l : List LineMatch) (lm : LineMatch)
    (hnd : (l.map fun x => x.line_no).Nodup) :
    spanCount (extendLine l lm) = spanCount l + lm.spans.length := by
  unfold extendLine
  by_cases h : (l.any fun x => x.line_no == lm.line_no) = true
  · rw [if_pos h]
    exact spanCount_map_extend lm l hnd ((any_line_no_eq l lm.line_no).mp h)
  · rw [if_neg h, spanCount_append, spanCount_cons, spanCount_nil]
    omega

theorem foldl_extendLine_spanCount :
    ∀ (l2 l1 : List LineMatch), (l1.map fun x => x.line_no).Nodup →
      spanCount (l2.foldl extendLine l1) = spanCount l1 + spanCount l2
  | [], _l1, _ => by simp [spanCount]
  | lm :: l2, l1, hnd => by
    rw [List.foldl_cons,
      foldl_extendLine_spanCount l2 (extendLine l1 lm) (extendLine_keyNodup l1 lm hnd),
      extendLine_spanCount l1 lm hnd, spanCount_cons]
    omega

theorem foldl_extendLine_keyNodup :
    ∀ (l2 l1 : List LineMatch), (l1.map fun x => x.line_no).Nodup →
      ((l2.foldl extendLine l1).map fun x => x.line_no).Nodup
  | [], _l1, h => h
  | lm :: l2, l1, h => foldl_extendLine_keyNodup l2 _ (extendLine_keyNodup l1 lm h)

theorem insertLast_of_no_key (l : List LineMatch) (lm : LineMatch)
    (h : ∀ x ∈ l, x.line_no ≠ lm.line_no) : insertLast l lm = l ++ [lm] := by
  unfold insertLast
  rw [if_neg]
  intro hany
  obtain ⟨x, hx, hxe⟩ := (any_line_no_eq l lm.line_no).mp hany
  exact h x hx hxe

theorem foldl_insertLast_append :
    ∀ (l acc : List LineMatch), (((acc ++ l).map fun x => x.line_no)).Nodup →
      l.foldl insertLast acc = acc ++ l
  | [], acc, _ => by simp
  | lm :: l, acc, h => by
    rw [List.map_append, List.nodup_append] at h
    obtain ⟨hacc, hcl, hdisj⟩ := h
    have hn : ∀ x ∈ acc, x.line_no ≠ lm.line_no := by
      intro x hx hxe
      exact hdisj (List.mem_map_of_mem _ hx)
        (by rw [hxe]; exact List.mem_map_of_mem _ (List.mem_cons_self _ _))
    rw [List.foldl_cons, insertLast_of_no_key acc lm hn,
      foldl_insertLast_append l (acc ++ [lm]) ?_]
    · rw [List.append_assoc, List.singleton_append]
    · rw [List.append_assoc, List.singleton_append, List.map_append, List.nodup_append]
      exact ⟨hacc, hcl, hdisj⟩

theorem dictOfLines_eq_self (l : List LineMatch)
    (hnd : (l.map fun x => x.line_no).Nodup) : dictOfLines l = l := by
  unfold dictOfLines
  have h := foldl_insertLast_append l [] (by simpa using hnd)
  simpa using h

theorem sortedLines_pairwise_lt (l : List LineMatch)
    (hnd : (l.map fun x => x.line_no).Nodup) :
    List.Pairwise (fun a b : LineMatch => a.line_no < b.line_no)
      (List.insertionSort lineLe l) := by
  have hs : List.Pairwise lineLe (List.insertionSort lineLe l) :=
    List.sorted_insertionSort lineLe l
  have hnd' : ((List.insertionSort lineLe l).map fun x => x.line_no).Nodup :=
    (List.Perm.map _ (List.perm_insertionSort lineLe l)).nodup_iff.mpr hnd
  have hne : List.Pairwise (fun a b : LineMatch => a.line_no ≠ b.line_no)
      (List.insertionSort lineLe l) := List.pairwise_map.mp hnd'
  exact (hs.and hne).imp fun hab => by
    obtain ⟨h1, h2⟩ := hab
    unfold lineLe at h1
    omega

theorem spanCount_perm (l1 l2 : List LineMatch) (h : l1.Perm l2) :
    spanCount l1 = spanCount l2 := by
  unfold spanCount
  exact (h.map fun lm => lm.spans.length).sum_eq

theorem search_sonnet_inv (doc : Document) (q : Str) : Inv (search_sonnet doc q) :=
  ⟨rfl, search_lines_pairwise (lower q) doc.lines 1⟩

theorem combine_results_inv (r1 r2 : Result) (h1 : Inv r1) (h2 : Inv r2) :
    Inv (combine_results r1 r2) := by
  obtain ⟨hm1, hp1⟩ := h1
  obtain ⟨hm2, hp2⟩ := h2
  have hnd1 := keyNodup_of_pairwise_lt r1.line_matches hp1
  have hdict := dictOfLines_eq_self r1.line_matches hnd1
  constructor
  · show r1.«matches» + r2.«matches» =
      (List.insertionSort pyLeSpan (r1.title_spans ++ r2.title_spans)).length +
        spanCount (List.insertionSort lineLe
          (r2.line_matches.foldl extendLine (dictOfLines r1.line_matches)))
    rw [(List.perm_insertionSort pyLeSpan (r1.title_spans ++ r2.title_spans)).length_eq,
      List.length_append,
      spanCount_perm _ _ (List.perm_insertionSort lineLe _),
      hdict, foldl_extendLine_spanCount r2.line_matches r1.line_matches hnd1]
    omega
  · show List.Pairwise _ (List.insertionSort lineLe
      (r2.line_matches.foldl extendLine (dictOfLines r1.line_matches)))
    apply sortedLines_pairwise_lt
    rw [hdict]
    exact foldl_extendLine_keyNodup r2.line_matches r1.line_matches hnd1

/-- C4: every result of `search_sonnet` satisfies the invariant
`matches = len title_spans + sum of line span counts` with `line_matches`
strictly ascending in `line_no` (at most one entry per line), and
`combine_results` preserves the invariant. -/
theorem result_invariant_spec :
    (∀ (doc : Document) (q : Str), Inv (search_sonnet doc q))
    ∧ ∀ r1 r2 : Result, Inv r1 → Inv r2 → Inv (combine_results r1 r2) :=
  ⟨search_sonnet_inv, combine_results_inv⟩

/-- C4 witness: the invariant holds for a concrete combination of two
single-term results on the same document. -/
theorem result_invariant_spec_witness :
    Inv (combine_results
      (search_sonnet ⟨"The cat".toList, ["the cat and the dog".toList]⟩ "the".toList)
      (search_sonnet ⟨"The cat".toList, ["the cat and the dog".toList]⟩ "cat".toList)) :=
  result_invariant_spec.2 _ _
    (result_invariant_spec.1 ⟨"The cat".toList, ["the cat and the dog".toList]⟩ "the".toList)
    (result_invariant_spec.1 ⟨"The cat".toList, ["the cat and the dog".toList]⟩ "cat".toList)

/-! ### The AND/OR fold of the query loop -/

theorem andOrStep_and_zero (doc : Document) (acc : Result) (t : Str)
    (h : acc.«matches» = 0 ∨ (search_sonnet doc t).«matches» = 0) :
    andOrStep "AND" doc acc t = { acc with «matches» := 0 } := by
  unfold andOrStep
  rw [if_pos rfl, if_neg]
  rintro ⟨h1, h2⟩
  rcases h with h | h <;> omega

theorem andOrStep_and_combine (doc : Document) (acc : Result) (t : Str)
    (h1 : 0 < acc.«matches») (h2 : 0 < (search_sonnet doc t).«matches») :
    andOrStep "AND" doc acc t = combine_results acc (search_sonnet doc t) := by
  unfold andOrStep
  rw [if_pos rfl, if_pos ⟨h1, h2⟩]

theorem runDoc_and_zero (doc : Document) (t1 t2 : Str)
    (h : (search_sonnet doc t2).«matches» = 0) :
    (runDoc "AND" doc t1 [t2]).«matches» = 0 := by
  show (andOrStep "AND" doc (search_sonnet doc t1) t2).«matches» = 0
  rw [andOrStep_and_zero doc _ t2 (Or.inr h)]

/-- C2: in AND mode the per-term fold replaces the accumulator by
`combine_results` when both sides have positive `matches`, and otherwise
forces `matches` to 0 while leaving the accumulated `title_spans` and
`line_matches` untouched; a document matching one term but not another ends
at `matches = 0`, and the query `"the the"` over a document whose single line
contains `"the"` twice ends at `matches = 4`. -/
theorem and_mode_spec :
    (∀ (doc : Document) (acc : Result) (t : Str),
        acc.«matches» = 0 ∨ (search_sonnet doc t).«matches» = 0 →
        (andOrStep "AND" doc acc t).«matches» = 0
          ∧ (andOrStep "AND" doc acc t).title_spans = acc.title_spans
          ∧ (andOrStep "AND" doc acc t).line_matches = acc.line_matches)
    ∧ (∀ (doc : Document) (acc : Result) (t : Str),
        0 < acc.«matches» → 0 < (search_sonnet doc t).«matches» →
        andOrStep "AND" doc acc t = combine_results acc (search_sonnet doc t))
    ∧ (∀ (doc : Document) (t1 t2 : Str), (search_sonnet doc t2).«matches» = 0 →
        (runDoc "AND" doc t1 [t2]).«matches» = 0)
    ∧ (runDoc "AND" ⟨"Sonnet I".toList, ["The cat and the dog".toList]⟩
        "the".toList ["the".toList]).«matches» = 4 := by
  refine ⟨?_, andOrStep_and_combine, runDoc_and_zero, by decide⟩
  intro doc acc t h
  rw [andOrStep_and_zero doc acc t h]
  exact ⟨rfl, rfl, rfl⟩

/-- C2 witness: the zero-forcing clause on a document matching `"aa"` but not
`"zz"`, and the combine clause on a document matching `"aa"` twice. -/
theorem and_mode_spec_witness :
    (runDoc "AND" ⟨"t".toList, ["aaa".toList]⟩ "aa".toList ["zz".toList]).«matches» = 0
    ∧ andOrStep "AND" ⟨"t".toList, ["aaa".toList]⟩
        (search_sonnet ⟨"t".toList, ["aaa".toList]⟩ "aa".toList) "aa".toList =
      combine_results (search_sonnet ⟨"t".toList, ["aaa".toList]⟩ "aa".toList)
        (search_sonnet ⟨"t".toList, ["aaa".toList]⟩ "aa".toList) :=
  ⟨and_mode_spec.2.2.1 ⟨"t".toList, ["aaa".toList]⟩ "aa".toList "zz".toList (by decide),
    and_mode_spec.2.1 ⟨"t".toList, ["aaa".toList]⟩ _ "aa".toList (by decide) (by decide)⟩

theorem or_fold_matches (doc : Document) :
    ∀ (ts : List Str) (r : Result),
      (ts.foldl (andOrStep "OR" doc) r).«matches» =
        r.«matches» + (ts.map fun t => (search_sonnet doc t).«matches»).sum
  | [], r => by simp
  | t :: ts, r => by
    rw [List.foldl_cons, or_fold_matches doc ts (andOrStep "OR" doc r t)]
    have hstep : andOrStep "OR" doc r t = combine_results r (search_sonnet doc t) := by
      unfold andOrStep
      rw [if_neg (by decide), if_pos rfl]
    rw [hstep]
    show r.«matches» + (search_sonnet doc t).«matches» + _ = _
    simp only [List.map_cons, List.sum_cons]
    omega

/-- C6: in OR mode every subsequent term is combined unconditionally, the
final `matches` of a document is the sum of its per-term match counts, and
that value is invariant under permutation of the query's terms. -/
theorem or_mode_sum_spec :
    (∀ (doc : Document) (acc : Result) (t : Str),
        andOrStep "OR" doc acc t = combine_results acc (search_sonnet doc t))
    ∧ (∀ (doc : Document) (t : Str) (ts : List Str),
        (runDoc "OR" doc t ts).«matches» =
          ((t :: ts).map fun w => (search_sonnet doc w).«matches»).sum)
    ∧ ∀ (doc : Document) (t : Str) (ts : List Str) (t' : Str) (ts' : List Str),
        (t :: ts).Perm (t' :: ts') →
        (runDoc "OR" doc t ts).«matches» = (runDoc "OR" doc t' ts').«matches» := by
  have hsum : ∀ (doc : Document) (t : Str) (ts : List Str),
      (runDoc "OR" doc t ts).«matches» =
        ((t :: ts).map fun w => (search_sonnet doc w).«matches»).sum := by
    intro doc t ts
    show (ts.foldl (andOrStep "OR" doc) (search_sonnet doc t)).«matches» = _
    rw [or_fold_matches doc ts (search_sonnet doc t)]
    simp only [List.map_cons, List.sum_cons]
  refine ⟨?_, hsum, ?_⟩
  · intro doc acc t
    unfold andOrStep
    rw [if_neg (by decide), if_pos rfl]
  · intro doc t ts t' ts' hperm
    rw [hsum doc t ts, hsum doc t' ts']
    exact (hperm.map fun w => (search_sonnet doc w).«matches»).sum_eq

/-- C6 witness: swapping the two terms of the OR query `"aa b"` on a concrete
document leaves the final match count unchanged. -/
theorem or_mode_sum_spec_witness :
    (runDoc "OR" ⟨"t".toList, ["aab".toList]⟩ "aa".toList ["b".toList]).«matches» =
      (runDoc "OR" ⟨"t".toList, ["aab".toList]⟩ "b".toList ["aa".toList]).«matches» :=
  or_mode_sum_spec.2.2 ⟨"t".toList, ["aab".toList]⟩ "aa".toList ["b".toList] "b".toList
    ["aa".toList] (List.Perm.swap _ _ _)

/-- C5 counterexample: with the invalid mode `"XX"` the engine does not
refuse to run — the two-term query `"aa zz"` over the document `"aaa"`
produces a presentable result with `matches = 2` (the first term's matches),
while AND mode on the same query yields 0. -/
theorem invalid_mode_runs_counterexample :
    (runDoc "XX" ⟨"t".toList, ["aaa".toList]⟩ "aa".toList ["zz".toList]).«matches» = 2
    ∧ (runDoc "AND" ⟨"t".toList, ["aaa".toList]⟩ "aa".toList ["zz".toList]).«matches» = 0 :=
  ⟨by decide, by decide⟩

/-- C5 (amended): for a `search_mode` outside `{"AND", "OR"}` the core does
not reject the query; the `elif` chain leaves the accumulator unchanged on
every subsequent term, so the query evaluates to the first term's
per-document results. -/
theorem invalid_mode_first_term (mode : String) (h1 : mode ≠ "AND") (h2 : mode ≠ "OR")
    (doc : Document) (t : Str) :
    ∀ ts : List Str, runDoc mode doc t ts = search_sonnet doc t
  | [] => rfl
  | t' :: ts => by
    show ((t' :: ts).foldl (andOrStep mode doc) (search_sonnet doc t)) = _
    rw [List.foldl_cons]
    have hid : andOrStep mode doc (search_sonnet doc t) t' = search_sonnet doc t := by
      unfold andOrStep
      rw [if_neg h1, if_neg h2]
    rw [hid]
    exact invalid_mode_first_term mode h1 h2 doc t ts

/-- C5 witness: mode `"XX"` on the query `"aa zz"` returns exactly the first
term's result. -/
theorem invalid_mode_first_term_witness :
    runDoc "XX" ⟨"t".toList, ["aaa".toList]⟩ "aa".toList ["zz".toList] =
      search_sonnet ⟨"t".toList, ["aaa".toList]⟩ "aa".toList :=
  invalid_mode_first_term "XX" (by decide) (by decide) ⟨"t".toList, ["aaa".toList]⟩
    "aa".toList ["zz".toList]

/-- C3: the code, evaluated at a failing input.  `combine_results` does NOT
leave its first argument unchanged: for two single-line results for the same
document sharing line 1, the post-call state of `result1` (the shared-list
`extend` modelled by `combine_mut_r1`) has its line-1 span list grown from
`[(0,2)]` to `[(0,2),(3,5)]`, so `result1` is mutated. -/
theorem combine_results_mutates_result1 :
    ((combine_mut_r1
        ⟨"t".toList, [], [⟨1, "ab".toList, [(0, 2)]⟩], 1⟩
        ⟨"t".toList, [], [⟨1, "ab".toList, [(3, 5)]⟩], 1⟩).line_matches.map
      fun lm => lm.spans) = [[(0, 2), (3, 5)]]
    ∧ combine_mut_r1
        ⟨"t".toList, [], [⟨1, "ab".toList, [(0, 2)]⟩], 1⟩
        ⟨"t".toList, [], [⟨1, "ab".toList, [(3, 5)]⟩], 1⟩
      ≠ ⟨"t".toList, [], [⟨1, "ab".toList, [(0, 2)]⟩], 1⟩ :=
  ⟨by decide, by decide⟩

/-! ### The presenter -/

/-- C9: `print_results` selects exactly the results with `matches > 0`
preserving corpus order (the selection is a sublist of the input), its first
output line is the summary, the summary is built from the matched count, the
total document count and the literal query text, the elapsed-time clause with
two decimal digits is appended exactly when a timing value is supplied, and
for the empty corpus the summary starts with `"0 out of 0"` regardless of
query. -/
theorem print_results_spec (query : Str) (results : List Result) (hl : Bool) :
    (∀ timeOpt : Option ℚ, (print_results query results hl timeOpt).head? =
        some (summary_line query results timeOpt))
    ∧ (results.filter fun r => decide (0 < r.«matches»)).Sublist results
    ∧ (∀ r : Result, r ∈ (results.filter fun r => decide (0 < r.«matches»)) ↔
        r ∈ results ∧ 0 < r.«matches»)
    ∧ summary_line query results none =
        natStr (results.filter fun r => decide (0 < r.«matches»)).length ++
          " out of ".toList ++ natStr results.length ++ " sonnets contain \"".toList ++
          query ++ "\".".toList
    ∧ (∀ t : ℚ, summary_line query results (some t) =
        summary_line query results none ++ " Your query took ".toList ++ format2dp t ++
          "ms.".toList)
    ∧ (∀ t : ℚ, ∃ d1 d2 : Char,
        format2dp t = natStr ((round (t * 100)).toNat / 100) ++ '.' :: [d1, d2])
    ∧ ∀ timeOpt : Option ℚ, ∃ rest : Str,
        summary_line query [] timeOpt = "0 out of 0".toList ++ rest := by
  refine ⟨fun _ => rfl, List.filter_sublist results, ?_, rfl, fun _ => rfl, ?_, ?_⟩
  · intro r
    rw [List.mem_filter]
    simp
  · intro t
    exact ⟨Char.ofNat (48 + (round (t * 100)).toNat % 100 / 10 % 10),
      Char.ofNat (48 + (round (t * 100)).toNat % 100 % 10), rfl⟩
  · intro timeOpt
    cases timeOpt with
    | none =>
      refine ⟨" sonnets contain \"".toList ++ query ++ "\".".toList, ?_⟩
      show natStr 0 ++ " out of ".toList ++ natStr 0 ++ " sonnets contain \"".toList ++
        query ++ "\".".toList = _
      have h0 : natStr 0 = ['0'] := by decide
      rw [h0]
      simp
    | some t =>
      refine ⟨" sonnets contain \"".toList ++ query ++ "\".".toList ++
        " Your query took ".toList ++ format2dp t ++ "ms.".toList, ?_⟩
      show (natStr 0 ++ " out of ".toList ++ natStr 0 ++ " sonnets contain \"".toList ++
        query ++ "\".".toList) ++ " Your query took ".toList ++ format2dp t ++
          "ms.".toList = _
      have h0 : natStr 0 = ['0'] := by decide
      rw [h0]
      simp

end Part6
